import Mathlib

set_option maxRecDepth 4000

/-!
Shallow embedding of the jstar build-time embedding scripts
(`src/scripts/bin2incl.py`, `src/scripts/txt2incl.py`,
`src/util/txt2incl.py`).  Python strings are modelled as lists of
characters; the scripts' string-builder lists are modelled as
`List Str` joined at the end, exactly as the Python code joins them.
-/

abbrev Str := List Char

/-- The character list of a string literal. -/
def chars (s : String) : Str := s.data

/-- Python `s.replace(old, new)` for a single-character pattern `old`:
every occurrence of `old` is replaced by `new`. -/
def replaceChar (s : Str) (old : Char) (new : Str) : Str :=
  s.flatMap (fun c => if c = old then new else [c])

/-- `os.path.basename` on a POSIX path: the part after the last slash. -/
def pyBasename (path : Str) : Str :=
  (path.reverse.takeWhile (fun c => c ≠ '/')).reverse

namespace bin2incl

/-- `name = os.path.basename(args.file).replace(".", "_")`
(src/scripts/bin2incl.py, line 18). -/
def name (path : Str) : Str := replaceChar (pyBasename path) '.' (chars "_")

end bin2incl

namespace util

/-- Auxiliary scanner for Python `str.split('/')`. -/
def splitSlashAux : Str → Str → List Str
  | acc, [] => [acc.reverse]
  | acc, c :: t =>
    if c = '/' then acc.reverse :: splitSlashAux [] t
    else splitSlashAux (c :: acc) t

/-- `fileName = sys.argv[1].split('/')` (src/util/txt2incl.py, line 26). -/
def splitSlash (s : Str) : List Str := splitSlashAux [] s

/-- `fileName = fileName[len(fileName) - 1]` (src/util/txt2incl.py, line 27). -/
def fileName (path : Str) : Str := (splitSlash path).getLastD []

/-- `fileName.replace('.', '_')` (src/util/txt2incl.py, line 28). -/
def name (path : Str) : Str := replaceChar (fileName path) '.' (chars "_")

end util

/-- The spec's description of identifier derivation: the input file's base
name with every `.` replaced by `_` and no other change. -/
def specIdentifier (path : Str) : Str :=
  (pyBasename path).map (fun c => if c = '.' then '_' else c)

lemma replaceChar_single (s : Str) (o n : Char) :
    replaceChar s o [n] = s.map (fun c => if c = o then n else c) := by
  induction s with
  | nil => rfl
  | cons c t ih =>
    simp only [replaceChar, List.flatMap_cons] at ih ⊢
    rw [ih]
    by_cases h : c = o <;> simp [h]

lemma takeWhile_append_of_all {p : Char → Bool} {l : Str} (r : Str)
    (h : ∀ a ∈ l, p a) : (l ++ r).takeWhile p = l ++ r.takeWhile p := by
  induction l with
  | nil => rfl
  | cons c t ih =>
    have hc : p c := h c (by simp)
    simp only [List.cons_append, List.takeWhile_cons, hc, if_true]
    rw [ih (fun a ha => h a (by simp [ha]))]

lemma takeWhile_append_of_stop {p : Char → Bool} {l : Str} (r : Str)
    (h : ∃ a ∈ l, ¬ p a) : (l ++ r).takeWhile p = l.takeWhile p := by
  induction l with
  | nil => simp at h
  | cons c t ih =>
    by_cases hc : p c
    · simp only [List.cons_append, List.takeWhile_cons, hc]
      obtain ⟨a, ha, hpa⟩ := h
      simp only [List.mem_cons] at ha
      rcases ha with ha | ha
      · subst ha; exact absurd hc hpa
      · rw [ih ⟨a, ha, hpa⟩]
    · simp [List.takeWhile_cons, hc]

lemma pyBasename_slash_cons (t : Str) :
    pyBasename ('/' :: t) = if '/' ∈ t then pyBasename t else t := by
  unfold pyBasename
  simp only [List.reverse_cons]
  by_cases h : '/' ∈ t
  · have hrev : ∃ a ∈ t.reverse, ¬ (fun c => decide (c ≠ '/')) a = true := by
      exact ⟨'/', by simp [h], by simp⟩
    rw [takeWhile_append_of_stop _ hrev]
    simp [h]
  · have hrev : ∀ a ∈ t.reverse, (fun c => decide (c ≠ '/')) a = true := by
      intro a ha
      simp only [List.mem_reverse] at ha
      simp only [decide_eq_true_eq]
      intro hEq; subst hEq; exact h ha
    rw [takeWhile_append_of_all _ hrev]
    simp [h]

lemma pyBasename_cons_of_mem {c : Char} (_hc : c ≠ '/') {t : Str}
    (h : '/' ∈ t) : pyBasename (c :: t) = pyBasename t := by
  unfold pyBasename
  simp only [List.reverse_cons]
  have hrev : ∃ a ∈ t.reverse, ¬ (fun c => decide (c ≠ '/')) a = true :=
    ⟨'/', by simp [h], by simp⟩
  rw [takeWhile_append_of_stop _ hrev]

lemma pyBasename_of_not_mem {t : Str} (h : '/' ∉ t) : pyBasename t = t := by
  unfold pyBasename
  have : ∀ a ∈ t.reverse, (fun c => decide (c ≠ '/')) a = true := by
    intro a ha
    simp only [List.mem_reverse] at ha
    simp only [decide_eq_true_eq]
    intro hEq; subst hEq; exact h ha
  rw [List.takeWhile_eq_self_iff.mpr this, List.reverse_reverse]

lemma splitSlashAux_ne_nil (s acc : Str) : util.splitSlashAux acc s ≠ [] := by
  induction s generalizing acc with
  | nil => simp [util.splitSlashAux]
  | cons c t ih =>
    simp only [util.splitSlashAux]
    split
    · simp
    · exact ih _

lemma getLastD_of_ne_nil {l : List Str} (h : l ≠ []) (d₁ d₂ : Str) :
    l.getLastD d₁ = l.getLastD d₂ := by
  cases l with
  | nil => exact absurd rfl h
  | cons a t => simp [List.getLastD]

lemma splitSlashAux_getLastD (s acc : Str) :
    (util.splitSlashAux acc s).getLastD [] =
      if '/' ∈ s then pyBasename s else acc.reverse ++ s := by
  induction s generalizing acc with
  | nil => simp [util.splitSlashAux, pyBasename]
  | cons c t ih =>
    by_cases hc : c = '/'
    · subst hc
      simp only [util.splitSlashAux, if_true]
      rw [List.getLastD_cons]
      rw [getLastD_of_ne_nil (splitSlashAux_ne_nil t []) _ []]
      rw [ih]
      rw [pyBasename_slash_cons]
      simp
    · simp only [util.splitSlashAux, hc, if_false, ih (c :: acc)]
      by_cases hm : '/' ∈ t
      · have : '/' ∈ c :: t := by simp [hm]
        simp only [hm, if_true, this, pyBasename_cons_of_mem hc hm]
      · have hnot : '/' ∉ c :: t := by
          simp only [List.mem_cons, not_or]
          exact ⟨fun h => hc h.symm, hm⟩
        simp [hm, hnot, List.reverse_cons]

lemma util_fileName_eq (path : Str) : util.fileName path = pyBasename path := by
  unfold util.fileName util.splitSlash
  rw [splitSlashAux_getLastD]
  by_cases h : '/' ∈ path
  · simp [h]
  · simp [h, pyBasename_of_not_mem h]

/-- C7: the generated identifier is the path's base name with every `.`
replaced by `_` and no other change, in both the scripts/ variant
(`os.path.basename` based) and the util/ variant (`split('/')` based);
in particular `shader.frag.txt` becomes `shader_frag_txt`. -/
theorem claim_C7 : ∀ path : Str,
    bin2incl.name path = specIdentifier path ∧
    util.name path = specIdentifier path ∧
    bin2incl.name (chars "shader.frag.txt") = chars "shader_frag_txt" := by
  intro path
  refine ⟨?_, ?_, by decide⟩
  · unfold bin2incl.name specIdentifier
    have : chars "_" = ['_'] := rfl
    rw [this, replaceChar_single]
  · unfold util.name specIdentifier
    have : chars "_" = ['_'] := rfl
    rw [this, replaceChar_single, util_fileName_eq]

/-! ## src/scripts/bin2incl.py : binary file → hex byte array -/

/-- One lowercase hexadecimal digit (value `n < 16`). -/
def hexDigit (n : Nat) : Char :=
  if n < 10 then Char.ofNat (48 + n) else Char.ofNat (87 + n)

/-- Python `byte.hex()` for a single byte: two lowercase hex digits. -/
def byteHex (b : Nat) : Str := [hexDigit (b / 16), hexDigit (b % 16)]

namespace bin2incl

/-- The fixed warning line of src/scripts/bin2incl.py (line 7). -/
def WARNING : Str :=
  chars "// WARNING: this is a file generated automatically by the build process, do not modify\n"

def LINE_WIDTH : Nat := 15

def LINE_INDENT : Str := chars "    "

/-- The byte loop (src/scripts/bin2incl.py, lines 28-42): before every 15th
entry (0-indexed counter `hexWritten`) a newline and the fixed indentation
are appended; each byte is appended as `0x` plus its two hex digits,
followed by `, `. -/
def body : List Nat → Nat → List Str
  | [], _ => []
  | b :: rest, hexWritten =>
    (if hexWritten % LINE_WIDTH = 0 then [chars "\n", LINE_INDENT] else [])
      ++ [chars "0x" ++ byteHex b, chars ", "] ++ body rest (hexWritten + 1)

/-- `"const size_t {}_len = {};".format(name, os.path.getsize(args.file))`
(src/scripts/bin2incl.py, line 49). -/
def lenDecl (name : Str) (size : Nat) : Str :=
  chars "const size_t " ++ name ++ chars "_len = " ++ (Nat.repr size).data ++ chars ";"

/-- The full `include_builder` list; `os.path.getsize` is the byte count of
the data read, i.e. `data.length`. -/
def builder (name : Str) (data : List Nat) : List Str :=
  [WARNING, chars "char " ++ name ++ chars "[] = ", chars "\x7b"]
    ++ body data 0
    ++ [chars "\n", chars "\x7d;", chars "\n", lenDecl name data.length]

/-- `"".join(include_builder)`, the text written to the output file. -/
def output (name : Str) (data : List Nat) : Str := (builder name data).flatten

/-- Numeric value of a hexadecimal digit character, as a decoder would
read the emitted literals back. -/
def hexVal (c : Char) : Option Nat :=
  if '0' ≤ c ∧ c ≤ '9' then some (c.toNat - 48)
  else if 'a' ≤ c ∧ c ≤ 'f' then some (c.toNat - 87)
  else none

/-- Parse one emitted hexadecimal byte literal `0xHH` back into a byte. -/
def parseHexByte : Str → Option Nat
  | '0' :: 'x' :: h :: l :: [] =>
    match hexVal h, hexVal l with
    | some a, some b => some (a * 16 + b)
    | _, _ => none
  | _ => none

/-- Recognizes the builder entries that are hexadecimal byte literals. -/
def isEntry (s : Str) : Bool := (chars "0x").isPrefixOf s && s.length == 4

end bin2incl

/-- Substring test: `containsSub needle hay` holds iff `needle` occurs
contiguously in `hay`. -/
def containsSub (needle : Str) : Str → Bool
  | [] => needle.isEmpty
  | c :: t => needle.isPrefixOf (c :: t) || containsSub needle t

lemma hexVal_hexDigit : ∀ n < 16, bin2incl.hexVal (hexDigit n) = some n := by decide

lemma parseHexByte_entry {b : Nat} (hb : b < 256) :
    bin2incl.parseHexByte (chars "0x" ++ byteHex b) = some b := by
  have h1 : b / 16 < 16 := by omega
  have h2 : b % 16 < 16 := by omega
  have hshape : chars "0x" ++ byteHex b
      = '0' :: 'x' :: hexDigit (b / 16) :: hexDigit (b % 16) :: [] := rfl
  rw [hshape]
  show (match bin2incl.hexVal (hexDigit (b / 16)), bin2incl.hexVal (hexDigit (b % 16)) with
    | some a, some b => some (a * 16 + b)
    | _, _ => none) = some b
  rw [hexVal_hexDigit _ h1, hexVal_hexDigit _ h2]
  simp only [Option.some.injEq]
  omega

lemma isEntry_entry (b : Nat) : bin2incl.isEntry (chars "0x" ++ byteHex b) = true := by
  have hshape : chars "0x" ++ byteHex b
      = '0' :: 'x' :: hexDigit (b / 16) :: hexDigit (b % 16) :: [] := rfl
  rw [bin2incl.isEntry, hshape]
  simp [List.isPrefixOf, chars]

lemma isEntry_cons_ne {c : Char} (rest : Str) (h : c ≠ '0') :
    bin2incl.isEntry (c :: rest) = false := by
  have : (chars "0x").isPrefixOf (c :: rest) = false := by
    show (('0' == c) && _) = false
    have : ('0' == c) = false := by
      simp only [beq_eq_false_iff_ne]
      exact fun hh => h hh.symm
    simp [this]
  simp [bin2incl.isEntry, this]

lemma filter_body (data : List Nat) (k : Nat) :
    (bin2incl.body data k).filter bin2incl.isEntry
      = data.map (fun b => chars "0x" ++ byteHex b) := by
  induction data generalizing k with
  | nil => rfl
  | cons b rest ih =>
    simp only [bin2incl.body]
    by_cases hk : k % bin2incl.LINE_WIDTH = 0
    · simp only [hk, if_true, List.filter_append, List.filter_cons, List.filter_nil]
      have e1 : bin2incl.isEntry (chars "\n") = false := rfl
      have e2 : bin2incl.isEntry bin2incl.LINE_INDENT = false := rfl
      have e3 : bin2incl.isEntry (chars ", ") = false := rfl
      simp [e1, e2, e3, isEntry_entry, ih]
    · simp only [hk, if_false, List.filter_append, List.filter_cons, List.filter_nil]
      have e3 : bin2incl.isEntry (chars ", ") = false := rfl
      simp [e3, isEntry_entry, ih]

lemma isEntry_char_header (name : Str) :
    bin2incl.isEntry (chars "char " ++ name ++ chars "[] = ") = false := by
  have hshape : chars "char " ++ name ++ chars "[] = "
      = 'c' :: (chars "har " ++ name ++ chars "[] = ") := rfl
  rw [hshape]
  exact isEntry_cons_ne _ (by decide)

lemma isEntry_lenDecl (name : Str) (size : Nat) :
    bin2incl.isEntry (bin2incl.lenDecl name size) = false := by
  have hshape : bin2incl.lenDecl name size
      = 'c' :: (chars "onst size_t " ++ name ++ chars "_len = "
          ++ (Nat.repr size).data ++ chars ";") := rfl
  rw [hshape]
  exact isEntry_cons_ne _ (by decide)

/-- C2 (round-trip, array mode): parsing the hexadecimal byte literals of
the emitted array declaration back into bytes, in emitted order,
reproduces the input bytes exactly, for any byte values (including `0x00`
and non-ASCII bytes). -/
theorem claim_C2 : ∀ (name : Str) (data : List Nat), (∀ b ∈ data, b < 256) →
    ((bin2incl.builder name data).filter bin2incl.isEntry).map bin2incl.parseHexByte
      = data.map some := by
  intro name data hdata
  have hW : bin2incl.isEntry bin2incl.WARNING = false := rfl
  have hB : bin2incl.isEntry (chars "\x7b") = false := rfl
  have hN : bin2incl.isEntry (chars "\n") = false := rfl
  have hC : bin2incl.isEntry (chars "\x7d;") = false := rfl
  rw [bin2incl.builder]
  simp only [List.filter_append, List.filter_cons, List.filter_nil, hW, hB, hN, hC,
    isEntry_char_header, isEntry_lenDecl, Bool.false_eq_true, if_false,
    List.nil_append, List.append_nil, filter_body]
  rw [List.map_map]
  exact List.map_congr_left (fun b hb => parseHexByte_entry (hdata b hb))

/-- C1: the emitted length constant equals the number of bytes of the
input file (`data.length`), for empty and non-empty files alike; it is a
function of the byte count only, independent of the encoded entries. -/
theorem claim_C1 : ∀ (name : Str) (data : List Nat),
    ∃ pre : Str, bin2incl.output name data
      = pre ++ bin2incl.lenDecl name data.length := by
  intro name data
  refine ⟨([bin2incl.WARNING, chars "char " ++ name ++ chars "[] = ", chars "\x7b"]
      ++ bin2incl.body data 0
      ++ [chars "\n", chars "\x7d;", chars "\n"]).flatten, ?_⟩
  rw [bin2incl.output, bin2incl.builder]
  have : ([bin2incl.WARNING, chars "char " ++ name ++ chars "[] = ", chars "\x7b"]
        ++ bin2incl.body data 0
        ++ [chars "\n", chars "\x7d;", chars "\n", bin2incl.lenDecl name data.length])
      = ([bin2incl.WARNING, chars "char " ++ name ++ chars "[] = ", chars "\x7b"]
        ++ bin2incl.body data 0
        ++ [chars "\n", chars "\x7d;", chars "\n"]) ++ [bin2incl.lenDecl name data.length] := by
    simp
  rw [this, List.flatten_append]
  simp

/-- The spec's description of the array entries: byte `i` (0-indexed) is
rendered as `0x` plus two lowercase hex digits followed by `, `, preceded
by a newline and four-space indentation whenever `i` is a multiple of 15. -/
def specEntries (data : List Nat) : Str :=
  (data.enum.map (fun p =>
    (if p.1 % 15 = 0 then chars "\n    " else []) ++ chars "0x" ++ byteHex p.2
      ++ chars ", ")).flatten

lemma body_flatten (data : List Nat) (k : Nat) :
    (bin2incl.body data k).flatten =
      ((data.enumFrom k).map (fun p =>
        (if p.1 % 15 = 0 then chars "\n    " else []) ++ chars "0x" ++ byteHex p.2
          ++ chars ", ")).flatten := by
  induction data generalizing k with
  | nil => rfl
  | cons b rest ih =>
    simp only [bin2incl.body, List.enumFrom, List.map_cons, List.flatten_cons]
    by_cases hk : k % 15 = 0
    · have : k % bin2incl.LINE_WIDTH = 0 := hk
      simp only [this, hk, if_true, List.flatten_append, List.flatten_cons,
        List.flatten_nil]
      rw [ih]
      simp [List.append_assoc]
      rfl
    · have : ¬ k % bin2incl.LINE_WIDTH = 0 := hk
      simp only [this, hk, if_false, List.flatten_append, List.flatten_cons,
        List.flatten_nil]
      rw [ih]
      simp [List.append_assoc]

/-- C4 counterexample: the output for bytes `[0x00, 0x01, 0xFF]` with
identifier `data_bin` does NOT contain the text the claim requires — the
length constant is declared `const size_t`, not `const unsigned int`. -/
theorem claim_C4_cex :
    containsSub
      (chars "char data_bin[] = \x7b\n    0x00, 0x01, 0xff, \n\x7d;\nconst unsigned int data_bin_len = 3;")
      (bin2incl.output (chars "data_bin") [0x00, 0x01, 0xff]) = false := by
  decide

/-- C4 (amended): array mode emits each byte as `0x` plus two lowercase hex
digits followed by `, `, with a newline plus fixed indentation before every
15th entry (0-indexed), and emits the length constant as
`const size_t <identifier>_len = <byteCount>;`; for input bytes
`[0x00, 0x01, 0xFF]` with identifier `data_bin` the output contains
`char data_bin[] = {\n    0x00, 0x01, 0xff, \n};\nconst size_t data_bin_len = 3;`. -/
theorem claim_C4 : ∀ (name : Str) (data : List Nat),
    bin2incl.output name data
      = bin2incl.WARNING ++ chars "char " ++ name ++ chars "[] = \x7b"
        ++ specEntries data ++ chars "\n\x7d;\n"
        ++ (chars "const size_t " ++ name ++ chars "_len = "
            ++ (Nat.repr data.length).data ++ chars ";")
    ∧ containsSub
        (chars "char data_bin[] = \x7b\n    0x00, 0x01, 0xff, \n\x7d;\nconst size_t data_bin_len = 3;")
        (bin2incl.output (chars "data_bin") [0x00, 0x01, 0xff]) = true := by
  intro name data
  constructor
  · rw [bin2incl.output, bin2incl.builder]
    simp only [List.flatten_append, List.flatten_cons, List.flatten_nil]
    rw [body_flatten data 0]
    have hs : specEntries data
        = ((data.enumFrom 0).map (fun p =>
            (if p.1 % 15 = 0 then chars "\n    " else []) ++ chars "0x" ++ byteHex p.2
              ++ chars ", ")).flatten := by
      rw [specEntries]
      rfl
    rw [← hs, bin2incl.lenDecl]
    have h1 : chars "char " ++ name ++ chars "[] = " ++ chars "\x7b"
        = chars "char " ++ name ++ chars "[] = \x7b" := by
      simp [chars, List.append_assoc]
    have h2 : chars "\n" ++ (chars "\x7d;" ++ chars "\n") = chars "\n\x7d;\n" := rfl
    simp [List.append_assoc, chars]
  · decide

/-! ## src/scripts/txt2incl.py : text file → escaped C string literal -/

/-- The whitespace characters removed by Python `str.strip()`. -/
def pyIsSpace (c : Char) : Bool :=
  c = ' ' || c = '\t' || c = '\n' || c = '\r' || c = '\x0b' || c = '\x0c'

/-- Trailing-whitespace removal (the right half of Python `str.strip()`). -/
def rstrip (s : Str) : Str := (s.reverse.dropWhile pyIsSpace).reverse

/-- Leading-whitespace removal (the left half of Python `str.strip()`). -/
def lstrip (s : Str) : Str := s.dropWhile pyIsSpace

/-- Python `str.strip()`. -/
def pyStrip (s : Str) : Str := lstrip (rstrip s)

namespace txt2incl

/-- The fixed warning line of src/scripts/txt2incl.py (line 5). -/
def WARNING : Str :=
  chars "// WARNING: this is a file generated automatically by the build process, do not modify"

/-- `name = os.path.basename(args.file).replace(".", "_")`
(src/scripts/txt2incl.py, line 28). -/
def name (path : Str) : Str := replaceChar (pyBasename path) '.' (chars "_")

/-- `re.sub("//.*", "", line)` (line 9): every match of `//` followed by
all characters up to the next newline (or the end of the string) is
removed; scanning resumes at that newline. -/
def subComment : Str → Str
  | [] => []
  | [c] => [c]
  | c :: d :: t =>
    if c = '/' ∧ d = '/' then subComment (t.dropWhile (fun x => x ≠ '\n'))
    else c :: subComment (d :: t)
termination_by s => s.length
decreasing_by
  · have := List.Sublist.length_le (List.dropWhile_sublist (l := t) (fun x => decide (x ≠ '\n')))
    simp only [List.length_cons]
    omega
  · simp only [List.length_cons]
    omega

/-- `minimize_line` (lines 8-9). -/
def minimize_line (line : Str) : Str := pyStrip (subComment line)

/-- `escape_line` (lines 12-13): escape backslashes, then double quotes. -/
def escape_line (line : Str) : Str :=
  replaceChar (replaceChar line '\\' (chars "\\\\")) '"' (chars "\\\"")

/-- `to_c_string` (lines 16-19). -/
def to_c_string (line : Str) : Str :=
  let l := escape_line (minimize_line line)
  if l.isEmpty then [] else chars "\"" ++ l ++ chars "\\n\""

/-- The `include_builder` list (lines 29-37): the warning, the declaration
header, every non-empty converted line, and the terminating `;`. -/
def builder (name : Str) (lines : List Str) : List Str :=
  [WARNING, chars "const char* " ++ name ++ chars " ="]
    ++ (lines.map to_c_string).filter (fun s => !s.isEmpty)
    ++ [chars ";"]

end txt2incl

/-- Python `"\n".join`. -/
def joinNL : List Str → Str
  | [] => []
  | [x] => x
  | x :: y :: t => x ++ '\n' :: joinNL (y :: t)

namespace txt2incl

/-- `"\n".join(include_builder)`, the text written to the output file
(line 40). -/
def output (name : Str) (lines : List Str) : Str := joinNL (builder name lines)

end txt2incl

/-- Modelled from the claim's wording: remove everything from the first
occurrence of `//` to the end of the line. -/
def takeBeforeComment : Str → Str
  | [] => []
  | [c] => [c]
  | c :: d :: t =>
    if c = '/' ∧ d = '/' then [] else c :: takeBeforeComment (d :: t)

/-- Single-pass escaping as the claim describes it: each backslash becomes
`\\`, each double quote becomes `\"`, all other characters are unchanged. -/
def escapeSpec (s : Str) : Str :=
  s.flatMap (fun c =>
    if c = '\\' then ['\\', '\\'] else if c = '"' then ['\\', '"'] else [c])

/-- The claim's per-line pipeline for string mode: strip the comment, strip
whitespace, escape, and wrap non-empty results as `"<content>\n"`. -/
def specToC (line : Str) : Str :=
  let l := escapeSpec (pyStrip (takeBeforeComment line))
  if l.isEmpty then [] else '"' :: l ++ ['\\', 'n', '"']

/-- Inverse of the escaping: `\x` becomes `x` for any `x`. -/
def unescape : Str → Str
  | [] => []
  | [c] => [c]
  | c :: d :: t => if c = '\\' then d :: unescape t else c :: unescape (d :: t)

/-- Scans a string and reports whether every `"` in it is consumed as the
second character of a `\"`-style escape pair. -/
def noUnescapedQuote : Str → Bool
  | [] => true
  | [c] => !(c = '"' : Bool)
  | c :: d :: t =>
    if c = '\\' then noUnescapedQuote t
    else if c = '"' then false
    else noUnescapedQuote (d :: t)

lemma replaceChar_append (a b : Str) (o : Char) (n : Str) :
    replaceChar (a ++ b) o n = replaceChar a o n ++ replaceChar b o n := by
  simp [replaceChar]

lemma escape_eq_spec (s : Str) : txt2incl.escape_line s = escapeSpec s := by
  induction s with
  | nil => rfl
  | cons c t ih =>
    have hstep : txt2incl.escape_line (c :: t)
        = replaceChar ((if c = '\\' then ['\\', '\\'] else [c])) '"' (chars "\\\"")
          ++ txt2incl.escape_line t := by
      rw [txt2incl.escape_line]
      have : replaceChar (c :: t) '\\' (chars "\\\\")
          = (if c = '\\' then ['\\', '\\'] else [c]) ++ replaceChar t '\\' (chars "\\\\") := by
        simp only [replaceChar, List.flatMap_cons]
        split <;> rfl
      rw [this, replaceChar_append]
      rfl
    rw [hstep, ih]
    by_cases hb : c = '\\'
    · subst hb
      simp [escapeSpec, replaceChar, List.flatMap_cons]
    · by_cases hq : c = '"'
      · subst hq
        simp only [escapeSpec, replaceChar, List.flatMap_cons, if_true, hb, if_false]
        rfl
      · simp only [escapeSpec, List.flatMap_cons, hb, hq, if_false]
        simp [replaceChar, hb, hq]

lemma mem_dropLast_cons {x a : Char} {l : Str} (h : x ∈ l.dropLast) :
    x ∈ (a :: l).dropLast := by
  cases l with
  | nil => simp at h
  | cons b t =>
    rw [List.dropLast_cons₂]
    exact List.mem_cons_of_mem _ h

lemma dropWhile_ne_nl : ∀ (t : Str), (∀ c ∈ t.dropLast, c ≠ '\n') →
    t.dropWhile (fun x => x ≠ '\n') = [] ∨
    t.dropWhile (fun x => x ≠ '\n') = ['\n'] := by
  intro t
  induction t with
  | nil => intro _; left; rfl
  | cons a t ih =>
    intro h
    by_cases ha : a = '\n'
    · subst ha
      right
      cases t with
      | nil => decide
      | cons b t2 =>
        exfalso
        have : '\n' ∈ ('\n' :: b :: t2).dropLast := by
          rw [List.dropLast_cons₂]
          simp
        exact h '\n' this rfl
    · rw [List.dropWhile_cons]
      have hpa : decide (a ≠ '\n') = true := by simp [ha]
      simp only [hpa, if_true]
      exact ih (fun c hc => h c (mem_dropLast_cons hc))

lemma subComment_spec : ∀ (n : Nat) (s : Str), s.length ≤ n →
    (∀ c ∈ s.dropLast, c ≠ '\n') →
    txt2incl.subComment s = takeBeforeComment s ∨
    txt2incl.subComment s = takeBeforeComment s ++ ['\n'] := by
  intro n
  induction n with
  | zero =>
    intro s hs _
    have : s = [] := List.length_eq_zero.mp (Nat.le_zero.mp hs)
    subst this
    left
    simp [txt2incl.subComment, takeBeforeComment]
  | succ n ih =>
    intro s hs hnl
    match s with
    | [] =>
      left
      simp [txt2incl.subComment, takeBeforeComment]
    | [c] =>
      left
      simp [txt2incl.subComment, takeBeforeComment]
    | c :: d :: t =>
      by_cases hcd : c = '/' ∧ d = '/'
      · have hsub : txt2incl.subComment (c :: d :: t)
            = txt2incl.subComment (t.dropWhile (fun x => x ≠ '\n')) := by
          rw [txt2incl.subComment]
          simp [hcd]
        have htb : takeBeforeComment (c :: d :: t) = [] := by
          rw [takeBeforeComment]
          simp [hcd]
        have hnlt : ∀ x ∈ t.dropLast, x ≠ '\n' := by
          intro x hx
          exact hnl x (mem_dropLast_cons (mem_dropLast_cons hx))
        rcases dropWhile_ne_nl t hnlt with hd | hd
        · left
          rw [hsub, hd, htb]
          simp [txt2incl.subComment]
        · right
          rw [hsub, hd, htb]
          simp [txt2incl.subComment]
      · have hsub : txt2incl.subComment (c :: d :: t)
            = c :: txt2incl.subComment (d :: t) := by
          rw [txt2incl.subComment]
          simp [hcd]
        have htb : takeBeforeComment (c :: d :: t)
            = c :: takeBeforeComment (d :: t) := by
          rw [takeBeforeComment]
          simp [hcd]
        have hlen : (d :: t).length ≤ n := by
          simp only [List.length_cons] at hs ⊢
          omega
        have hnl2 : ∀ x ∈ (d :: t).dropLast, x ≠ '\n' := by
          intro x hx
          exact hnl x (mem_dropLast_cons hx)
        rcases ih (d :: t) hlen hnl2 with hh | hh
        · left; rw [hsub, htb, hh]
        · right; rw [hsub, htb, hh]; rfl

lemma pyStrip_append_nl (x : Str) : pyStrip (x ++ ['\n']) = pyStrip x := by
  have : rstrip (x ++ ['\n']) = rstrip x := by
    rw [rstrip, rstrip, List.reverse_append]
    simp only [List.reverse_cons, List.reverse_nil, List.nil_append, List.cons_append,
      List.nil_append]
    rw [List.dropWhile_cons]
    simp [pyIsSpace]
  rw [pyStrip, pyStrip, this]

lemma minimize_eq {line : Str} (h : ∀ c ∈ line.dropLast, c ≠ '\n') :
    txt2incl.minimize_line line = pyStrip (takeBeforeComment line) := by
  rcases subComment_spec line.length line le_rfl h with hh | hh
  · rw [txt2incl.minimize_line, hh]
  · rw [txt2incl.minimize_line, hh, pyStrip_append_nl]

/-- C3: string mode first removes everything from the first `//` to the end
of the line, then strips whitespace, then escapes `\` and `"`, wrapping
non-empty results as a quoted literal ending in `\n`; lines that are empty
after stripping (blank and comment-only lines) produce no literal. -/
theorem claim_C3 : ∀ line : Str, (∀ c ∈ line.dropLast, c ≠ '\n') →
    txt2incl.to_c_string line = specToC line ∧
    (pyStrip (takeBeforeComment line) = [] → txt2incl.to_c_string line = []) := by
  intro line h
  have h1 : txt2incl.to_c_string line = specToC line := by
    rw [txt2incl.to_c_string, specToC]
    simp only [minimize_eq h, escape_eq_spec]
    split
    · rfl
    · simp [chars, List.append_assoc]
  refine ⟨h1, fun hz => ?_⟩
  rw [h1, specToC]
  simp [hz, escapeSpec]

/-- C3 witness at the spec's own example line `hello // comment` (with a
leading indent and trailing newline): the pipeline holds there and yields
the literal `"hello\n"`. -/
theorem claim_C3_witness :
    (∀ c ∈ (chars "  hello // comment\n").dropLast, c ≠ '\n') ∧
    (txt2incl.to_c_string (chars "  hello // comment\n")
        = specToC (chars "  hello // comment\n") ∧
     (pyStrip (takeBeforeComment (chars "  hello // comment\n")) = [] →
        txt2incl.to_c_string (chars "  hello // comment\n") = [])) :=
  ⟨by decide, claim_C3 (chars "  hello // comment\n") (by decide)⟩

lemma unescape_escapeSpec (s : Str) : unescape (escapeSpec s) = s := by
  induction s with
  | nil => rfl
  | cons c t ih =>
    by_cases hb : c = '\\'
    · subst hb
      simp only [escapeSpec, List.flatMap_cons, if_true, List.cons_append,
        List.nil_append]
      rw [← escapeSpec]
      simp only [unescape, if_true]
      rw [ih]
    · by_cases hq : c = '"'
      · subst hq
        simp only [escapeSpec, List.flatMap_cons, if_false, List.cons_append,
          List.nil_append]
        rw [← escapeSpec]
        simp only [unescape, if_true]
        simp [ih]
      · simp only [escapeSpec, List.flatMap_cons, hb, hq, if_false,
          List.singleton_append]
        rw [← escapeSpec]
        cases hX : escapeSpec t with
        | nil =>
          rw [hX] at ih
          simp only [unescape] at ih ⊢
          rw [← ih]
        | cons d t2 =>
          rw [hX] at ih
          simp only [unescape, hb, if_false]
          rw [ih]

lemma noUnescapedQuote_escapeSpec (s : Str) :
    noUnescapedQuote (escapeSpec s) = true := by
  induction s with
  | nil => rfl
  | cons c t ih =>
    by_cases hb : c = '\\'
    · subst hb
      simp only [escapeSpec, List.flatMap_cons, if_true, List.cons_append,
        List.nil_append]
      rw [← escapeSpec]
      simp only [noUnescapedQuote, if_true]
      exact ih
    · by_cases hq : c = '"'
      · subst hq
        simp only [escapeSpec, List.flatMap_cons, if_false, List.cons_append,
          List.nil_append]
        rw [← escapeSpec]
        simp only [noUnescapedQuote, if_true]
        exact ih
      · simp only [escapeSpec, List.flatMap_cons, hb, hq, if_false,
          List.singleton_append]
        rw [← escapeSpec]
        cases hX : escapeSpec t with
        | nil =>
          simp [noUnescapedQuote, hq]
        | cons d t2 =>
          rw [hX] at ih
          simp only [noUnescapedQuote, hb, hq, if_false]
          exact ih

/-- C10 (implicit): backslashes are escaped before double quotes, so the
two sequential replacements act as one single-pass escape — a `"` becomes
exactly `\"`, a `\` becomes exactly `\\` — the escaping is invertible, and
the escaped text contains no unescaped double quote. -/
theorem claim_C10 : ∀ s : Str,
    txt2incl.escape_line s = escapeSpec s ∧
    unescape (txt2incl.escape_line s) = s ∧
    noUnescapedQuote (txt2incl.escape_line s) = true ∧
    txt2incl.escape_line ['"'] = ['\\', '"'] ∧
    txt2incl.escape_line ['\\'] = ['\\', '\\'] := by
  intro s
  refine ⟨escape_eq_spec s, ?_, ?_, by decide, by decide⟩
  · rw [escape_eq_spec]
    exact unescape_escapeSpec s
  · rw [escape_eq_spec]
    exact noUnescapedQuote_escapeSpec s

/-! ## src/util/txt2incl.py : the older python2 variant -/

namespace util

/-- The warning of src/util/txt2incl.py (lines 23-24): it names the input
path and spans two lines. -/
def WARNING (path : Str) : Str :=
  chars "// WARNING: this is a file generated automatically by the build process from\n// \""
    ++ path ++ chars "\". Do not modify.\n"

/-- `stringify` (src/util/txt2incl.py, lines 9-16): drop one trailing
newline, return empty lines unchanged, escape backslashes then quotes, and
wrap as `"<line>\n"`. -/
def stringify (line : Str) : Str :=
  let l := if line.getLast? = some '\n' then line.dropLast else line
  if l.isEmpty then l
  else
    chars "\"" ++ replaceChar (replaceChar l '\\' (chars "\\\\")) '"' (chars "\\\"")
      ++ chars "\\n\""

/-- The `header` string built by src/util/txt2incl.py (lines 30-37):
warning, declaration head, `cstr + '\n'` for each line whose `stringify`
is non-empty, and the final `;`. -/
def header (path : Str) (lines : List Str) : Str :=
  WARNING path
    ++ (chars "const char *" ++ name path ++ chars " =\n"
        ++ (lines.map (fun l =>
              let c := stringify l
              if c.isEmpty then [] else c ++ ['\n'])).flatten
        ++ chars ";")

end util

lemma isPrefixOf_append_self (s t : Str) : s.isPrefixOf (s ++ t) = true := by
  induction s with
  | nil => simp [List.isPrefixOf]
  | cons c r ih => simp [List.isPrefixOf, ih]

/-- C5 counterexample: the output of the util/txt2incl.py variant (here for
input path `a.txt` and an empty file) does not begin with the fixed warning
line the claim states; its warning names the input path instead. -/
theorem claim_C5_cex :
    (chars "// WARNING: this is a file generated automatically by the build process, do not modify").isPrefixOf
      (util.header (chars "a.txt") []) = false := by
  decide

/-- C5 (amended): the two scripts/ tools begin their output with the fixed
single warning line
`// WARNING: this is a file generated automatically by the build process, do not modify`,
independent of input and output paths; the util/txt2incl.py variant begins
with its own two-line warning, which embeds the input path. -/
theorem claim_C5 : ∀ (name : Str) (data : List Nat) (lines : List Str)
    (path : Str) (ulines : List Str),
    (chars "// WARNING: this is a file generated automatically by the build process, do not modify").isPrefixOf
        (bin2incl.output name data) = true ∧
    (chars "// WARNING: this is a file generated automatically by the build process, do not modify").isPrefixOf
        (txt2incl.output name lines) = true ∧
    (util.WARNING path).isPrefixOf (util.header path ulines) = true := by
  intro name data lines path ulines
  refine ⟨?_, ?_, ?_⟩
  · rw [bin2incl.output]
    have hb : bin2incl.builder name data
        = bin2incl.WARNING
            :: ([chars "char " ++ name ++ chars "[] = ", chars "\x7b"]
              ++ bin2incl.body data 0
              ++ [chars "\n", chars "\x7d;", chars "\n",
                bin2incl.lenDecl name data.length]) := rfl
    rw [hb, List.flatten_cons]
    have hw : bin2incl.WARNING
        = chars "// WARNING: this is a file generated automatically by the build process, do not modify"
          ++ ['\n'] := rfl
    rw [hw, List.append_assoc]
    exact isPrefixOf_append_self _ _
  · rw [txt2incl.output]
    have hb : txt2incl.builder name lines
        = txt2incl.WARNING
            :: ((chars "const char* " ++ name ++ chars " =")
              :: ((lines.map txt2incl.to_c_string).filter (fun s => !s.isEmpty)
                ++ [chars ";"])) := rfl
    rw [hb]
    simp only [joinNL]
    exact isPrefixOf_append_self _ _
  · rw [util.header]
    exact isPrefixOf_append_self _ _

/-! ## C6: round trip for string mode -/

/-- Decode one emitted literal: drop the opening quote, the final `\n`
escape and the closing quote, then un-escape. -/
def decodeLit (l : Str) : Str :=
  unescape ((l.drop 1).take ((l.drop 1).length - 3))

lemma subComment_id : ∀ (n : Nat) (s : Str), s.length ≤ n →
    containsSub (chars "//") s = false → txt2incl.subComment s = s := by
  intro n
  induction n with
  | zero =>
    intro s hs _
    have : s = [] := List.length_eq_zero.mp (Nat.le_zero.mp hs)
    subst this
    simp [txt2incl.subComment]
  | succ n ih =>
    intro s hs hns
    match s with
    | [] => simp [txt2incl.subComment]
    | [c] => simp [txt2incl.subComment]
    | c :: d :: t =>
      have hcd : ¬ (c = '/' ∧ d = '/') := by
        rintro ⟨hc, hd⟩
        subst hc; subst hd
        rw [containsSub] at hns
        have : (chars "//").isPrefixOf ('/' :: '/' :: t) = true := by
          simp [List.isPrefixOf, chars]
        rw [this] at hns
        simp at hns
      have hns2 : containsSub (chars "//") (d :: t) = false := by
        rw [containsSub] at hns
        exact (Bool.or_eq_false_iff.mp hns).2
      have hlen : (d :: t).length ≤ n := by
        simp only [List.length_cons] at hs ⊢
        omega
      rw [txt2incl.subComment]
      simp only [hcd, if_false]
      rw [ih (d :: t) hlen hns2]

lemma mem_of_mem_pyStrip {x : Char} {s : Str} (h : x ∈ pyStrip s) : x ∈ s := by
  rw [pyStrip, lstrip] at h
  have h1 : x ∈ rstrip s := (List.dropWhile_sublist _).subset h
  rw [rstrip] at h1
  rw [List.mem_reverse] at h1
  have h2 : x ∈ s.reverse := (List.dropWhile_sublist _).subset h1
  rwa [List.mem_reverse] at h2

lemma escapeSpec_id : ∀ {s : Str}, '\\' ∉ s → '"' ∉ s → escapeSpec s = s := by
  intro s
  induction s with
  | nil => intro _ _; rfl
  | cons c t ih =>
    intro hb hq
    simp only [List.mem_cons, not_or] at hb hq
    have hcb : ¬ c = '\\' := fun hh => hb.1 hh.symm
    have hcq : ¬ c = '"' := fun hh => hq.1 hh.symm
    simp only [escapeSpec, List.flatMap_cons, hcb, hcq, if_false,
      List.singleton_append]
    rw [← escapeSpec, ih hb.2 hq.2]

lemma unescape_id : ∀ {s : Str}, '\\' ∉ s → unescape s = s := by
  intro s
  induction s with
  | nil => intro _; rfl
  | cons c t ih =>
    intro h
    simp only [List.mem_cons, not_or] at h
    have hc : ¬ c = '\\' := fun hh => h.1 hh.symm
    cases t with
    | nil => simp [unescape]
    | cons d t2 =>
      simp only [unescape, hc, if_false]
      rw [ih h.2]

lemma to_c_string_clean {l : Str} (hns : containsSub (chars "//") l = false)
    (hq : '"' ∉ l) (hb : '\\' ∉ l) :
    txt2incl.to_c_string l
      = if (pyStrip l).isEmpty then [] else '"' :: pyStrip l ++ ['\\', 'n', '"'] := by
  rw [txt2incl.to_c_string, txt2incl.minimize_line, subComment_id l.length l le_rfl hns]
  have hq2 : '"' ∉ pyStrip l := fun hh => hq (mem_of_mem_pyStrip hh)
  have hb2 : '\\' ∉ pyStrip l := fun hh => hb (mem_of_mem_pyStrip hh)
  rw [escape_eq_spec, escapeSpec_id hb2 hq2]
  split
  · rfl
  · simp [chars, List.append_assoc]

lemma decodeLit_wrap {x : Str} (hb : '\\' ∉ x) :
    decodeLit ('"' :: x ++ ['\\', 'n', '"']) = x := by
  rw [decodeLit]
  simp only [List.cons_append, List.drop_succ_cons, List.drop_zero,
    List.length_append, List.length_cons, List.length_nil]
  have harith : x.length + (0 + 1 + 1 + 1) - 3 = x.length := by omega
  rw [harith, List.take_left]
  exact unescape_id hb

lemma lits_clean (lines : List Str)
    (h : ∀ l ∈ lines, containsSub (chars "//") l = false ∧ '"' ∉ l ∧ '\\' ∉ l) :
    ((lines.map txt2incl.to_c_string).filter (fun s => !s.isEmpty)).map decodeLit
      = (lines.map pyStrip).filter (fun l => !l.isEmpty) := by
  induction lines with
  | nil => rfl
  | cons l rest ih =>
    obtain ⟨h1, h2, h3⟩ := h l (List.mem_cons_self l rest)
    have ihrest := ih (fun x hx => h x (List.mem_cons_of_mem l hx))
    simp only [List.map_cons, List.filter_cons]
    rw [to_c_string_clean h1 h2 h3]
    by_cases hE : (pyStrip l).isEmpty
    · simp [hE, ihrest]
    · have hb2 : '\\' ∉ pyStrip l := fun hh => h3 (mem_of_mem_pyStrip hh)
      simp [hE, ihrest]
      exact decodeLit_wrap hb2

/-- C6 (round trip, string mode): for input lines free of `//`, double
quotes and backslashes, un-escaping each emitted literal (dropping its
quotes and final `\n` escape) gives exactly the whitespace-stripped
non-empty lines in order, and joining them with newlines gives the same
joined text. -/
theorem claim_C6 : ∀ (name : Str) (lines : List Str),
    (∀ l ∈ lines, containsSub (chars "//") l = false ∧ '"' ∉ l ∧ '\\' ∉ l) →
    (((txt2incl.builder name lines).drop 2).dropLast).map decodeLit
        = (lines.map pyStrip).filter (fun l => !l.isEmpty) ∧
    joinNL ((((txt2incl.builder name lines).drop 2).dropLast).map decodeLit)
        = joinNL ((lines.map pyStrip).filter (fun l => !l.isEmpty)) := by
  intro name lines h
  have hdrop : ((txt2incl.builder name lines).drop 2).dropLast
      = (lines.map txt2incl.to_c_string).filter (fun s => !s.isEmpty) := by
    rw [txt2incl.builder]
    have hd2 : ([txt2incl.WARNING, chars "const char* " ++ name ++ chars " ="]
          ++ (lines.map txt2incl.to_c_string).filter (fun s => !s.isEmpty)
          ++ [chars ";"]).drop 2
        = (lines.map txt2incl.to_c_string).filter (fun s => !s.isEmpty)
          ++ [chars ";"] := rfl
    rw [hd2]
    simp
  rw [hdrop]
  have hmain := lits_clean lines h
  exact ⟨hmain, by rw [hmain]⟩

/-- C6 witness on a small file: lines `"  a \n"`, `"\n"`, `"b\n"` decode
back to the stripped non-empty lines `a`, `b`. -/
theorem claim_C6_witness :
    (∀ l ∈ [chars "  a \n", chars "\n", chars "b\n"],
        containsSub (chars "//") l = false ∧ '"' ∉ l ∧ '\\' ∉ l) ∧
    ((((txt2incl.builder (chars "f_txt")
          [chars "  a \n", chars "\n", chars "b\n"]).drop 2).dropLast).map decodeLit
        = ([chars "  a \n", chars "\n", chars "b\n"].map pyStrip).filter
            (fun l => !l.isEmpty) ∧
     joinNL ((((txt2incl.builder (chars "f_txt")
          [chars "  a \n", chars "\n", chars "b\n"]).drop 2).dropLast).map decodeLit)
        = joinNL (([chars "  a \n", chars "\n", chars "b\n"].map pyStrip).filter
            (fun l => !l.isEmpty))) :=
  ⟨by decide, claim_C6 (chars "f_txt") _ (by decide)⟩

/-! ## Runs over a file store: overwrite semantics, idempotence, usage errors -/

/-- A file store: paths to contents. -/
def FileStore := Str → Option Str

/-- `open(path, "w")` followed by a single `write`: the destination is
fully overwritten with `content`, every other file is untouched. -/
def writeFile (fs : FileStore) (p : Str) (content : Str) : FileStore :=
  fun q => if q = p then some content else fs q

/-- Split a text into the lines Python file iteration yields: each line
keeps its trailing newline; a last fragment without a newline is its own
line; the empty text has no lines. -/
def splitLinesAux : Str → Str → List Str
  | acc, [] => if acc.isEmpty then [] else [acc.reverse]
  | acc, c :: t =>
    if c = '\n' then (acc.reverse ++ ['\n']) :: splitLinesAux [] t
    else splitLinesAux (c :: acc) t

def splitLines (s : Str) : List Str := splitLinesAux [] s

/-- One run of an embedding tool: read the input file, emit the generated
text, overwrite the output file with it; if the input cannot be opened
nothing is written. -/
def runEmbed (emit : Str → Str → Str) (inPath outPath : Str) (fs : FileStore) :
    FileStore :=
  match fs inPath with
  | none => fs
  | some content => writeFile fs outPath (emit inPath content)

/-- What src/scripts/txt2incl.py emits for a given input path and input
file content. -/
def txtEmit : Str → Str → Str :=
  fun p c => txt2incl.output (txt2incl.name p) (splitLines c)

/-- One run of src/scripts/txt2incl.py over the file store. -/
def txtRun (inPath outPath : Str) (fs : FileStore) : FileStore :=
  runEmbed txtEmit inPath outPath fs

/-- C8: the tools are deterministic and the output file is fully
overwritten, not appended to: a second run over the same input and output
paths leaves the output byte-identical, the prior content of the output
file never influences the result, and in particular this holds for the
text embedder `txtRun`. -/
theorem claim_C8 : ∀ (emit : Str → Str → Str) (inPath outPath : Str)
    (fs : FileStore), inPath ≠ outPath →
    runEmbed emit inPath outPath (runEmbed emit inPath outPath fs) outPath
        = runEmbed emit inPath outPath fs outPath ∧
    (∀ old : Str, fs inPath ≠ none →
      runEmbed emit inPath outPath (writeFile fs outPath old) outPath
        = runEmbed emit inPath outPath fs outPath) ∧
    txtRun inPath outPath (txtRun inPath outPath fs) outPath
        = txtRun inPath outPath fs outPath := by
  intro emit inPath outPath fs hne
  have key : ∀ (e : Str → Str → Str),
      runEmbed e inPath outPath (runEmbed e inPath outPath fs) outPath
        = runEmbed e inPath outPath fs outPath := by
    intro e
    cases hin : fs inPath with
    | none => simp [runEmbed, hin]
    | some content =>
      have hfs1 : writeFile fs outPath (e inPath content) inPath = fs inPath := by
        rw [writeFile]
        simp [hne]
      simp only [runEmbed, hin]
      rw [hfs1, hin]
      simp [writeFile]
  refine ⟨key emit, ?_, key txtEmit⟩
  intro old hsome
  cases hin : fs inPath with
  | none => exact absurd hin hsome
  | some content =>
    simp [runEmbed, writeFile, hne, hin]

/-- A concrete two-file store for the C8 witness. -/
def fsC : FileStore :=
  fun q => if q = chars "in.txt" then some (chars "x // y\n") else none

/-- C8 witness: with distinct concrete input and output paths, a second run
of the text embedder leaves the output file byte-identical. -/
theorem claim_C8_witness :
    chars "in.txt" ≠ chars "out.h" ∧
    runEmbed txtEmit (chars "in.txt") (chars "out.h")
        (runEmbed txtEmit (chars "in.txt") (chars "out.h") fsC) (chars "out.h")
      = runEmbed txtEmit (chars "in.txt") (chars "out.h") fsC (chars "out.h") :=
  ⟨by decide, (claim_C8 txtEmit (chars "in.txt") (chars "out.h") fsC (by decide)).1⟩

/-- The result of one process run: the final file store, the exit code,
and the message printed, if any. -/
structure RunResult where
  fs : FileStore
  exitCode : Nat
  printed : Option Str

namespace util

/-- The argument checks of src/util/txt2incl.py (lines 18-21): fewer than
two real arguments is a usage error reported through `error` (lines 5-7),
which prints the message and exits with status 1. -/
def checkArgv (argv : List Str) : Except (Str × Nat) (Str × Str) :=
  if argv.length < 2 then .error (chars "No input file", 1)
  else if argv.length < 3 then .error (chars "No output file", 1)
  else .ok (argv.getD 1 [], argv.getD 2 [])

/-- A full run of src/util/txt2incl.py: `argv` includes the program name.
On a usage error the process exits non-zero having touched no file; on a
missing input file it exits non-zero without writing; otherwise it writes
the generated header to the output path and exits 0. -/
def run (argv : List Str) (fs : FileStore) : RunResult :=
  match checkArgv argv with
  | .error (msg, code) => ⟨fs, code, some msg⟩
  | .ok (inp, outp) =>
    match fs inp with
    | none => ⟨fs, 1, none⟩
    | some content => ⟨writeFile fs outp (header inp (splitLines content)), 0, none⟩

end util

/-- C9: invoked with no input path the util tool prints `No input file`
and exits with code 1; with an input but no output path it prints
`No output file` and exits with code 1; in both cases the file store is
untouched. -/
theorem claim_C9 : ∀ (argv : List Str) (fs : FileStore),
    (argv.length < 2 →
      util.run argv fs = ⟨fs, 1, some (chars "No input file")⟩) ∧
    (argv.length = 2 →
      util.run argv fs = ⟨fs, 1, some (chars "No output file")⟩) := by
  intro argv fs
  constructor
  · intro h
    rw [util.run, util.checkArgv]
    simp [h]
  · intro h
    have h1 : ¬ argv.length < 2 := by omega
    have h2 : argv.length < 3 := by omega
    rw [util.run, util.checkArgv]
    simp [h1, h2]

/-- C9 witness: a run with only the program name in `argv` reports the
missing input file, exits 1, and leaves the file store unchanged. -/
theorem claim_C9_witness :
    [chars "txt2incl.py"].length < 2 ∧
    util.run [chars "txt2incl.py"] fsC
      = ⟨fsC, 1, some (chars "No input file")⟩ :=
  ⟨by decide, (claim_C9 [chars "txt2incl.py"] fsC).1 (by decide)⟩

/-- C2 witness: for the bytes `[0x00, 0x01, 0xFF]` the emitted hex
literals decode back to exactly those bytes. -/
theorem claim_C2_witness :
    (∀ b ∈ ([0x00, 0x01, 0xff] : List Nat), b < 256) ∧
    ((bin2incl.builder (chars "data_bin") [0x00, 0x01, 0xff]).filter
        bin2incl.isEntry).map bin2incl.parseHexByte
      = ([0x00, 0x01, 0xff] : List Nat).map some :=
  ⟨by decide, claim_C2 (chars "data_bin") [0x00, 0x01, 0xff] (by decide)⟩
